import Mathlib

/- Shallow embedding of the lexical retrieval engine of src/src/App.jsx:
   tokenize (lines 13-19), chunkText (lines 21-33), buildTfIdfIndex
   (lines 35-69) and tfidfQuery (lines 71-97).  JavaScript numbers are
   modelled as real numbers, JavaScript Map objects as insertion-ordered
   association lists, and the while loop of chunkText as a fueled loop
   whose result is none when the loop has not finished within the fuel. -/

/-- Characters matched by the JavaScript regexp class \s, restricted to the
ASCII range that the inputs of this development use. -/
def isJsWs (c : Char) : Bool :=
  c == ' ' || c == '\t' || c == '\n' || c == '\r' || c == '\x0b' || c == '\x0c'

/-- Characters of the regexp class [a-z0-9] used by tokenize. -/
def isLowerAlnum (c : Char) : Bool :=
  (decide ('a' ≤ c) && decide (c ≤ 'z')) || (decide ('0' ≤ c) && decide (c ≤ '9'))

/-- Pointwise action of .replace(/[^a-z0-9\s]/g, " ") at line 16: a character
that is neither in [a-z0-9] nor whitespace becomes a space. -/
def replaceChar (c : Char) : Char :=
  if isLowerAlnum c || isJsWs c then c else ' '

/-- Splitting on whitespace runs fused with the .filter(Boolean) of line 18:
the maximal runs of non-whitespace characters, in order.  The split
/\s+/ of line 17 can additionally emit empty strings at the borders, but
those are exactly what the Boolean filter removes, so the composite is
this function. -/
def wsTokens : List Char → List Char → List String
  | [], cur => if cur = [] then [] else [String.mk cur.reverse]
  | c :: cs, cur =>
    if isJsWs c then
      if cur = [] then wsTokens cs [] else String.mk cur.reverse :: wsTokens cs []
    else wsTokens cs (c :: cur)

/-- Embeds tokenize, src/src/App.jsx lines 13-19: lower-case, replace every
character outside [a-z0-9] and whitespace by a space, split on whitespace
runs, drop empty tokens. -/
def tokenize (text : String) : List String :=
  wsTokens ((text.toList.map Char.toLower).map replaceChar) []

/-- Embeds the (text || "") guard of line 14: a missing text value is
tokenized like the empty string. -/
def tokenizeNullable (text : Option String) : List String :=
  tokenize (text.getD "")

/-- One text.slice(i, e) over the character list. -/
def jsSlice (text : String) (i e : Nat) : String :=
  String.mk ((text.toList.drop i).take (e - i))

/-- The String.prototype.trim of line 28: drop leading and trailing
whitespace. -/
def jsTrim (s : String) : String :=
  String.mk (((s.toList.dropWhile isJsWs).reverse.dropWhile isJsWs).reverse)

/-- Embeds the while loop of chunkText, lines 25-31, with explicit fuel;
none means the loop had not exited within the given fuel.  The cursor
update i = end - overlap; if (i < 0) i = 0 is the truncated Nat
subtraction. -/
def chunkLoop (text : String) (chunkSize overlap : Nat) :
    Nat → Nat → List String → Option (List String)
  | 0, _, _ => none
  | fuel + 1, i, acc =>
    if i < text.length then
      chunkLoop text chunkSize overlap fuel
        (min text.length (i + chunkSize) - overlap)
        (acc ++ [jsTrim (jsSlice text i (min text.length (i + chunkSize)))])
    else some acc

/-- Embeds chunkText, lines 21-33, with fuel for the while loop; the final
.filter(Boolean) drops the empty strings. -/
def chunkTextFuel (fuel : Nat) (text : String) (chunkSize overlap : Nat) :
    Option (List String) :=
  (chunkLoop text chunkSize overlap fuel 0 []).map (fun cs => cs.filter (fun s => s ≠ ""))

/-- With a positive overlap the cursor can never leave [0, len): the next
cursor value min len (i + chunkSize) - overlap is at most len - overlap,
so the loop guard i < len stays true forever on non-empty text. -/
theorem chunkLoop_eq_none (text : String) (chunkSize overlap : Nat)
    (hov : 1 ≤ overlap) :
    ∀ fuel i acc, i < text.length →
      chunkLoop text chunkSize overlap fuel i acc = none := by
  intro fuel
  induction fuel with
  | zero => intro i acc _; rfl
  | succ n ih =>
    intro i acc hi
    have hnext : min text.length (i + chunkSize) - overlap < text.length := by
      have h1 : min text.length (i + chunkSize) ≤ text.length := Nat.min_le_left _ _
      omega
    simp only [chunkLoop, if_pos hi]
    exact ih _ _ hnext

/-- The fueled chunkText never produces a result on non-empty text when the
overlap is positive, whatever the fuel. -/
theorem chunkTextFuel_eq_none (text : String) (chunkSize overlap : Nat)
    (hov : 1 ≤ overlap) (htext : 1 ≤ text.length) :
    ∀ fuel, chunkTextFuel fuel text chunkSize overlap = none := by
  intro fuel
  unfold chunkTextFuel
  rw [chunkLoop_eq_none text chunkSize overlap hov fuel 0 [] (by omega)]
  rfl

/-- C1: the claim states that for chunkSize > overlapSize ≥ 0, in particular
for the defaults 600 and 80, the chunker terminates, the cursor advancing
by chunkSize - overlapSize clamped at zero and stopping once it reaches
the text length.  The code instead sets the cursor to end - overlap with
end capped at the text length, so on any non-empty text with a positive
overlap the cursor never reaches the text length and the while loop of
lines 25-31 never exits, even under the claimed precondition
chunkSize > overlapSize. -/
theorem chunkText_nontermination (text : String) (chunkSize overlap : Nat)
    (hco : overlap < chunkSize) (hov : 1 ≤ overlap) (htext : 1 ≤ text.length) :
    ∀ fuel, chunkTextFuel fuel text chunkSize overlap = none :=
  chunkTextFuel_eq_none text chunkSize overlap hov htext

/-- Witness for C1 at the one-character text "a" with the default
configuration chunkSize = 600 > overlap = 80. -/
theorem chunkText_nontermination_witness :
    chunkTextFuel 5 "a" 600 80 = none :=
  chunkText_nontermination "a" 600 80 (by decide) (by decide) (by decide) 5

/-- C2: the claim states that a document whose text has length at most
chunkSize and trims to a non-empty string yields exactly one chunk.  On
such a text the code reaches end = text.length in the very first
iteration, resets the cursor to text.length - overlap and loops forever,
so the chunker never returns at all. -/
theorem chunkText_short_doc_nontermination (text : String)
    (hlen : text.length ≤ 600) (hne : 1 ≤ text.length) (htrim : jsTrim text ≠ "") :
    ∀ fuel, chunkTextFuel fuel text 600 80 = none :=
  chunkTextFuel_eq_none text 600 80 (by decide) hne

/-- Witness for C2 at the two-character text "hi". -/
theorem chunkText_short_doc_nontermination_witness :
    chunkTextFuel 5 "hi" 600 80 = none :=
  chunkText_short_doc_nontermination "hi" (by decide) (by decide) (by decide) 5

/-- Document records {id, title, text} as consumed by buildTfIdfIndex. -/
structure Doc where
  id : String
  title : String
  text : String

/-- Chunk records {id, docId, title, text, tokens} of line 44. -/
structure Chunk where
  id : String
  docId : String
  title : String
  text : String
  tokens : List String

/-- A chunk extended with its tf-idf vector and norm, line 66. -/
structure WChunk extends Chunk where
  vec : List (String × ℝ)
  norm : ℝ

/-- The index snapshot {chunks, df, N} of line 68. -/
structure TfIdfIndex where
  chunks : List WChunk
  df : List (String × Nat)
  N : Nat

/-- Map.prototype.get over an insertion-ordered association list. -/
def mapGet {α : Type} : List (String × α) → String → Option α
  | [], _ => none
  | (k, v) :: rest, t => if k = t then some v else mapGet rest t

/-- Map.prototype.set over an insertion-ordered association list: an existing
key keeps its position, a new key is appended at the end. -/
def mapSet {α : Type} : List (String × α) → String → α → List (String × α)
  | [], k, v => [(k, v)]
  | (k', v') :: rest, k, v =>
    if k' = k then (k, v) :: rest else (k', v') :: mapSet rest k v

/-- The counting loop m.set(t, (m.get(t) || 0) + 1) of lines 51, 57 and 76,
run over a list of keys. -/
def countFold (m : List (String × Nat)) (ts : List String) : List (String × Nat) :=
  ts.foldl (fun m t => mapSet m t ((mapGet m t).getD 0 + 1)) m

/-- The deduplication new Set(c.tokens) of line 50: first occurrences, in
order, as the Set iteration order of JavaScript. -/
def firstDedup : List String → List String
  | [] => []
  | x :: xs => x :: (firstDedup xs).filter (fun y => y ≠ x)

/-- The document-frequency pass of lines 48-52. -/
def buildDF (cs : List Chunk) : List (String × Nat) :=
  cs.foldl (fun m c => countFold m (firstDedup c.tokens)) []

/-- The per-document chunk records of lines 39-46, for one document whose
chunkText output is the list ps; cid is the running unique id counter. -/
def docChunks (d : Doc) : List String → Nat → List Chunk
  | [], _ => []
  | p :: ps, cid =>
    if (tokenize p).length = 0 then docChunks d ps cid
    else ⟨"c" ++ toString cid, d.id, d.title, p, tokenize p⟩ :: docChunks d ps (cid + 1)

/-- Number of chunk strings of one document that survive the empty-token
filter of line 43. -/
def survCount (ps : List String) : Nat :=
  ps.countP (fun p => !((tokenize p).length == 0))

/-- All chunk records of lines 37-46, each document paired with the list of
strings its chunkText call would return. -/
def chunksFromParts : List (Doc × List String) → Nat → List Chunk
  | [], _ => []
  | (d, ps) :: rest, cid => docChunks d ps cid ++ chunksFromParts rest (cid + survCount ps)

/-- The norm guard Math.sqrt(x) || 1 of lines 66 and 86: the square root,
replaced by 1 when it is zero. -/
noncomputable def normGuard (len2 : ℝ) : ℝ :=
  if Real.sqrt len2 = 0 then 1 else Real.sqrt len2

/-- The running sum len2 += w * w of lines 59 and 64 (and 78 and 84), taken
over the entries of the finished vector, which the forEach builds in the
same order. -/
noncomputable def sumSquares (vec : List (String × ℝ)) : ℝ :=
  vec.foldl (fun acc p => acc + p.2 * p.2) 0

/-- The smoothed inverse document frequency of lines 61 and 81:
Math.log((N + 1) / ((df.get(t) || 0) + 1)) + 1. -/
noncomputable def idfOf (N : Nat) (df : List (String × Nat)) (t : String) : ℝ :=
  Real.log (((N : ℝ) + 1) / (((mapGet df t).getD 0 : ℝ) + 1)) + 1

/-- The weighting of one chunk, lines 55-66: term frequencies, the weight
(f / c.tokens.length) * idf per term, and the guarded Euclidean norm. -/
noncomputable def weightChunk (N : Nat) (df : List (String × Nat)) (c : Chunk) : WChunk :=
  let tf := countFold [] c.tokens
  let vec := tf.map (fun p => (p.1, ((p.2 : ℝ) / (c.tokens.length : ℝ)) * idfOf N df p.1))
  { toChunk := c, vec := vec, norm := normGuard (sumSquares vec) }

/-- Embeds buildTfIdfIndex, lines 35-69, with the chunkText call of line 40,
which never returns on non-empty text, replaced by the explicitly supplied
per-document chunk list.  N is chunks.length || 1 as at line 53. -/
noncomputable def buildTfIdfIndexFromParts (dps : List (Doc × List String)) : TfIdfIndex :=
  let cs := chunksFromParts dps 0
  let df := buildDF cs
  let N := if cs.length = 0 then 1 else cs.length
  { chunks := cs.map (weightChunk N df), df := df, N := N }

/-- Embeds the full buildTfIdfIndex pipeline, lines 35-69, chunkText call
included, with fuel for the chunkText while loop: none when some chunkText
call does not finish within the fuel. -/
noncomputable def buildTfIdfIndexFuel (fuel : Nat) (docs : List Doc) : Option TfIdfIndex :=
  (docs.mapM (fun d => (chunkTextFuel fuel d.text 600 80).map (fun ps => (d, ps)))).map
    buildTfIdfIndexFromParts

/-- C3: the claim states that on [{id: "d1", text: "alpha beta alpha"}] with
the default chunking configuration, build yields one passage with tokens
[alpha, beta, alpha], a query for "alpha" returns it with positive score
and a query for "gamma" returns an empty sequence.  The build call never
returns: chunkText on the 16-character text computes end = 16, sets the
cursor to 16 - 80 clamped to 0 and loops forever, whatever the fuel.
(The query part of the claim also disagrees with the code: tfidfQuery
keeps zero-score passages, see the C10 theorem.) -/
theorem build_concrete_scenario_divergence (fuel : Nat) :
    buildTfIdfIndexFuel fuel [⟨"d1", "", "alpha beta alpha"⟩] = none := by
  have h : chunkTextFuel fuel "alpha beta alpha" 600 80 = none :=
    chunkTextFuel_eq_none _ _ _ (by decide) (by decide) fuel
  simp [buildTfIdfIndexFuel, List.mapM, List.mapM.loop, h]

/-- Looking a key up after a set sees the new value exactly at that key. -/
theorem mapGet_mapSet {α : Type} (m : List (String × α)) (k : String) (v : α)
    (t : String) :
    mapGet (mapSet m k v) t = if k = t then some v else mapGet m t := by
  induction m with
  | nil => simp [mapGet, mapSet]
  | cons p rest ih =>
    obtain ⟨k', v'⟩ := p
    by_cases hk : k' = k
    · subst hk
      simp [mapSet, mapGet]
      split_ifs <;> rfl
    · by_cases ht : k' = t
      · subst ht
        have hkt : ¬ (k = k') := fun h => hk h.symm
        simp [mapSet, hk, mapGet, ih, hkt]
      · simp [mapSet, hk, mapGet, ht, ih]

/-- Looking up a mapped association list maps the looked-up value. -/
theorem mapGet_map {α β : Type} (m : List (String × α)) (g : String → α → β)
    (t : String) :
    mapGet (m.map (fun p => (p.1, g p.1 p.2))) t = (mapGet m t).map (g t) := by
  induction m with
  | nil => simp [mapGet]
  | cons p rest ih =>
    obtain ⟨k, v⟩ := p
    by_cases h : k = t
    · subst h; simp [mapGet]
    · simp [mapGet, h, ih]

/-- The counting loop of countFold adds the number of occurrences of a key to
its entry, creating the entry if the key occurs and was absent. -/
theorem mapGet_countFold (ts : List String) (m : List (String × Nat)) (t : String) :
    mapGet (countFold m ts) t =
      if t ∈ ts then some ((mapGet m t).getD 0 + ts.count t) else mapGet m t := by
  induction ts generalizing m with
  | nil => simp [countFold]
  | cons a ts ih =>
    have hstep : countFold m (a :: ts)
        = countFold (mapSet m a ((mapGet m a).getD 0 + 1)) ts := by
      simp [countFold]
    rw [hstep, ih]
    by_cases hat : t = a
    · subst hat
      rw [mapGet_mapSet]
      by_cases hmem : t ∈ ts
      · simp [hmem, List.count_cons]
        omega
      · simp [hmem, List.count_cons, List.count_eq_zero_of_not_mem hmem]
    · rw [mapGet_mapSet]
      have hne : ¬ (a = t) := fun h => hat h.symm
      simp only [if_neg hne]
      by_cases hmem : t ∈ ts
      · simp [hmem, hat, List.count_cons, hne]
      · simp [hmem, hat, List.count_cons, hne]

/-- firstDedup keeps exactly the members of the list. -/
theorem mem_firstDedup (l : List String) (t : String) :
    t ∈ firstDedup l ↔ t ∈ l := by
  induction l with
  | nil => simp [firstDedup]
  | cons x xs ih =>
    by_cases h : t = x
    · subst h; simp [firstDedup]
    · simp [firstDedup, h, List.mem_filter, ih]

/-- firstDedup keeps one copy of each member. -/
theorem count_firstDedup (l : List String) (t : String) :
    (firstDedup l).count t = if t ∈ l then 1 else 0 := by
  induction l with
  | nil => simp [firstDedup]
  | cons x xs ih =>
    by_cases h : t = x
    · subst h
      have hzero : ((firstDedup xs).filter (fun y => !decide (y = t))).count t = 0 := by
        apply List.count_eq_zero_of_not_mem
        intro hmem
        have := (List.mem_filter.mp hmem).2
        simp at this
      simp [firstDedup, List.count_cons, hzero]
    · have hkeep : ((firstDedup xs).filter (fun y => y ≠ x)).count t
          = (firstDedup xs).count t := by
        rw [List.count_filter]
        simp [h]
      have hne : ¬ (x = t) := fun hx => h hx.symm
      simp only [firstDedup, List.count_cons]
      rw [hkeep, ih]
      simp [h, hne]

/-- The document-frequency fold of lines 48-52 over a chunk prefix: each
chunk containing the term bumps its entry by one. -/
theorem mapGet_dfFold (cs : List Chunk) (m : List (String × Nat)) (t : String) :
    mapGet (cs.foldl (fun m c => countFold m (firstDedup c.tokens)) m) t =
      if 0 < cs.countP (fun c => decide (t ∈ c.tokens))
      then some ((mapGet m t).getD 0 + cs.countP (fun c => decide (t ∈ c.tokens)))
      else mapGet m t := by
  induction cs generalizing m with
  | nil => simp
  | cons c cs ih =>
    rw [List.foldl_cons, ih, List.countP_cons]
    rw [mapGet_countFold]
    by_cases hmem : t ∈ c.tokens
    · have hmem' : t ∈ firstDedup c.tokens := (mem_firstDedup _ _).mpr hmem
      rw [if_pos hmem', count_firstDedup]
      by_cases hrest : 0 < cs.countP (fun c => decide (t ∈ c.tokens))
      · simp [hmem, hrest]
        omega
      · have h0 : cs.countP (fun c => decide (t ∈ c.tokens)) = 0 := by omega
        simp [hmem, h0]
    · have hmem' : t ∉ firstDedup c.tokens := fun h => hmem ((mem_firstDedup _ _).mp h)
      rw [if_neg hmem']
      simp [hmem]

/-- Looking a term up in the built document-frequency table yields the number
of chunks containing it, and no entry when no chunk contains it. -/
theorem mapGet_buildDF (cs : List Chunk) (t : String) :
    mapGet (buildDF cs) t =
      if 0 < cs.countP (fun c => decide (t ∈ c.tokens))
      then some (cs.countP (fun c => decide (t ∈ c.tokens)))
      else none := by
  unfold buildDF
  rw [mapGet_dfFold]
  simp [mapGet]

/-- Chunk fields pass through the weighting unchanged. -/
theorem weightChunk_tokens (N : Nat) (df : List (String × Nat)) (c : Chunk) :
    (weightChunk N df c).tokens = c.tokens := rfl

/-- The weight vector stored by weightChunk, spelled out. -/
theorem weightChunk_vec (N : Nat) (df : List (String × Nat)) (c : Chunk) :
    (weightChunk N df c).vec
      = (countFold [] c.tokens).map
          (fun p => (p.1, ((p.2 : ℝ) / (c.tokens.length : ℝ)) * idfOf N df p.1)) := rfl

/-- The norm stored by weightChunk, spelled out. -/
theorem weightChunk_norm (N : Nat) (df : List (String × Nat)) (c : Chunk) :
    (weightChunk N df c).norm = normGuard (sumSquares (weightChunk N df c).vec) := rfl

/-- Looking a term up in a weight vector built over a term-frequency list
applies the weight function to the looked-up frequency. -/
theorem mapGet_weightMap (m : List (String × Nat)) (len : ℝ) (N : Nat)
    (df : List (String × Nat)) (t : String) :
    mapGet (m.map (fun p => (p.1, ((p.2 : ℝ) / len) * idfOf N df p.1))) t
      = (mapGet m t).map (fun f => ((f : ℝ) / len) * idfOf N df t) := by
  induction m with
  | nil => simp [mapGet]
  | cons p rest ih =>
    obtain ⟨k, v⟩ := p
    by_cases h : k = t
    · subst h; simp [mapGet]
    · simp [mapGet, h, ih]

/-- C9: in a built snapshot the document frequency recorded for a term is the
number of distinct passages whose token list contains it, in-passage
repetitions counting once, and any recorded value lies between 1 and the
passage count.  Proved over the index built from supplied chunk lists,
since the chunkText stage itself never returns on non-empty input (C1). -/
theorem df_counts_distinct_passages (dps : List (Doc × List String)) (t : String) (n : Nat)
    (h : mapGet (buildTfIdfIndexFromParts dps).df t = some n) :
    n = (buildTfIdfIndexFromParts dps).chunks.countP (fun c => decide (t ∈ c.tokens))
    ∧ 1 ≤ n ∧ n ≤ (buildTfIdfIndexFromParts dps).chunks.length := by
  have hdf : (buildTfIdfIndexFromParts dps).df = buildDF (chunksFromParts dps 0) := rfl
  have hchunks : (buildTfIdfIndexFromParts dps).chunks
      = (chunksFromParts dps 0).map
          (weightChunk (buildTfIdfIndexFromParts dps).N (buildTfIdfIndexFromParts dps).df) := rfl
  rw [hdf, mapGet_buildDF] at h
  rw [hchunks, List.countP_map, List.length_map]
  have hpred : ((fun c : WChunk => decide (t ∈ c.tokens))
        ∘ weightChunk (buildTfIdfIndexFromParts dps).N (buildTfIdfIndexFromParts dps).df)
      = (fun c : Chunk => decide (t ∈ c.tokens)) := rfl
  rw [hpred]
  by_cases hp : 0 < (chunksFromParts dps 0).countP (fun c => decide (t ∈ c.tokens))
  · rw [if_pos hp] at h
    have hn := Option.some.inj h
    subst hn
    exact ⟨rfl, hp, List.countP_le_length _⟩
  · rw [if_neg hp] at h
    exact absurd h (by simp)

/-- Witness for C9: in the snapshot built over one passage with tokens
[alpha, beta, alpha], the recorded document frequency of alpha is 1. -/
def docEx : Doc := ⟨"d1", "", "alpha beta alpha"⟩

/-- The document-and-parts input of the concrete scenario of the spec. -/
def dpsEx : List (Doc × List String) := [(docEx, ["alpha beta alpha"])]

theorem df_counts_distinct_passages_witness :
    1 = (buildTfIdfIndexFromParts dpsEx).chunks.countP (fun c => decide ("alpha" ∈ c.tokens))
    ∧ 1 ≤ 1 ∧ 1 ≤ (buildTfIdfIndexFromParts dpsEx).chunks.length :=
  df_counts_distinct_passages dpsEx "alpha" 1 (by decide)

/-- C5: in a built snapshot, every term of a passage is stored with weight
(termFreq / totalTokens) * (ln((N + 1) / (df(t) + 1)) + 1), with N the
surviving passage count (1 when zero), and the smoothed idf factor is
strictly positive.  Proved over the index built from supplied chunk
lists, since the chunkText stage never returns on non-empty input (C1). -/
theorem weight_formula_smoothed_idf (dps : List (Doc × List String)) (c : WChunk)
    (hc : c ∈ (buildTfIdfIndexFromParts dps).chunks) (t : String) (ht : t ∈ c.tokens) :
    mapGet c.vec t
      = some (((c.tokens.count t : ℝ) / (c.tokens.length : ℝ))
          * (Real.log ((((buildTfIdfIndexFromParts dps).N : ℝ) + 1)
              / (((mapGet (buildTfIdfIndexFromParts dps).df t).getD 0 : ℝ) + 1)) + 1))
    ∧ 0 < Real.log ((((buildTfIdfIndexFromParts dps).N : ℝ) + 1)
          / (((mapGet (buildTfIdfIndexFromParts dps).df t).getD 0 : ℝ) + 1)) + 1 := by
  have hchunks : (buildTfIdfIndexFromParts dps).chunks
      = (chunksFromParts dps 0).map
          (weightChunk (buildTfIdfIndexFromParts dps).N (buildTfIdfIndexFromParts dps).df) := rfl
  rw [hchunks] at hc
  obtain ⟨c0, hc0, rfl⟩ := List.mem_map.mp hc
  rw [weightChunk_tokens] at ht ⊢
  have hpos : 0 < (chunksFromParts dps 0).countP (fun c => decide (t ∈ c.tokens)) :=
    List.countP_pos_iff.mpr ⟨c0, hc0, by simpa using ht⟩
  have hdfeq : (buildTfIdfIndexFromParts dps).df = buildDF (chunksFromParts dps 0) := rfl
  have hdfv : mapGet (buildTfIdfIndexFromParts dps).df t
      = some ((chunksFromParts dps 0).countP (fun c => decide (t ∈ c.tokens))) := by
    rw [hdfeq, mapGet_buildDF, if_pos hpos]
  have hlen0 : (chunksFromParts dps 0).length ≠ 0 := by
    intro h0
    rw [List.length_eq_zero] at h0
    rw [h0] at hc0
    simp at hc0
  have hN : (buildTfIdfIndexFromParts dps).N = (chunksFromParts dps 0).length := by
    show (if (chunksFromParts dps 0).length = 0 then 1 else (chunksFromParts dps 0).length)
      = (chunksFromParts dps 0).length
    simp [hlen0]
  have hratio : 1 ≤ (((buildTfIdfIndexFromParts dps).N : ℝ) + 1)
      / (((mapGet (buildTfIdfIndexFromParts dps).df t).getD 0 : ℝ) + 1) := by
    rw [hdfv, hN]
    have hle : ((chunksFromParts dps 0).countP (fun c => decide (t ∈ c.tokens)) : ℝ)
        ≤ ((chunksFromParts dps 0).length : ℝ) := by
      exact_mod_cast List.countP_le_length _
    simp only [Option.getD_some]
    rw [one_le_div (by positivity)]
    linarith
  refine ⟨?_, ?_⟩
  · rw [weightChunk_vec, mapGet_weightMap, mapGet_countFold, if_pos ht]
    simp [mapGet, idfOf]
  · have hlog := Real.log_nonneg hratio
    linarith

/-- The single chunk record the scenario input produces. -/
def chunkEx : Chunk := ⟨"c0", "d1", "", "alpha beta alpha", ["alpha", "beta", "alpha"]⟩

/-- The single weighted chunk of the snapshot built over dpsEx. -/
noncomputable def cEx : WChunk :=
  weightChunk 1 (buildDF (chunksFromParts dpsEx 0)) chunkEx

/-- The snapshot built over dpsEx holds exactly the chunk cEx. -/
theorem chunksEx : (buildTfIdfIndexFromParts dpsEx).chunks = [cEx] := rfl

/-- Witness for C5 at the term alpha of the scenario passage. -/
theorem weight_formula_smoothed_idf_witness :
    mapGet cEx.vec "alpha"
      = some (((cEx.tokens.count "alpha" : ℝ) / (cEx.tokens.length : ℝ))
          * (Real.log ((((buildTfIdfIndexFromParts dpsEx).N : ℝ) + 1)
              / (((mapGet (buildTfIdfIndexFromParts dpsEx).df "alpha").getD 0 : ℝ) + 1)) + 1)) :=
  (weight_formula_smoothed_idf dpsEx cEx
    (by rw [chunksEx]; exact List.mem_singleton.mpr rfl) "alpha" (by decide)).1

/-- The query vector of lines 75-85: term frequencies of the query tokens,
weighted with the same formula as a passage, against the snapshot's
document-frequency table. -/
noncomputable def queryVec (N : Nat) (df : List (String × Nat)) (qTokens : List String) :
    List (String × ℝ) :=
  (countFold [] qTokens).map
    (fun p => (p.1, ((p.2 : ℝ) / (qTokens.length : ℝ)) * idfOf N df p.1))

/-- The dot-product loop of lines 88-92: iterate the query vector, looking
each term up in the chunk vector with default 0. -/
noncomputable def dotWith (qvec cvec : List (String × ℝ)) : ℝ :=
  qvec.foldl (fun acc p => acc + p.2 * ((mapGet cvec p.1).getD 0)) 0

/-- The scored chunk list of lines 87-95: every chunk of the snapshot paired
with its cosine score dot / (qnorm * c.norm). -/
noncomputable def scoreChunks (index : TfIdfIndex) (qTokens : List String) :
    List (WChunk × ℝ) :=
  let qvec := queryVec index.N index.df qTokens
  let qnorm := normGuard (sumSquares qvec)
  index.chunks.map (fun c => (c, dotWith qvec c.vec / (qnorm * c.norm)))

/-- Stable descending insertion: the inserted element goes in front of the
first already placed element whose score it meets or exceeds.  This is the
unique stable descending order that the ECMAScript stable
Array.prototype.sort produces under the comparator (a, b) => b.score - a.score
of line 96. -/
noncomputable def insertDesc (x : WChunk × ℝ) : List (WChunk × ℝ) → List (WChunk × ℝ)
  | [] => [x]
  | y :: ys => if y.2 ≤ x.2 then x :: y :: ys else y :: insertDesc x ys

/-- Stable descending sort of the scored chunks, line 96. -/
noncomputable def sortDesc (l : List (WChunk × ℝ)) : List (WChunk × ℝ) :=
  l.foldr insertDesc []

/-- Embeds tfidfQuery, lines 71-97: empty snapshot or empty tokenized query
give an empty result, otherwise the scored chunks are sorted by descending
score and truncated to the first k. -/
noncomputable def tfidfQuery (index : TfIdfIndex) (query : String) (k : Nat) :
    List (WChunk × ℝ) :=
  if index.chunks.length = 0 then []
  else if (tokenize query).length = 0 then []
  else (sortDesc (scoreChunks index (tokenize query))).take k

/-- Membership in an insertion. -/
theorem mem_insertDesc (x z : WChunk × ℝ) (l : List (WChunk × ℝ)) :
    z ∈ insertDesc x l ↔ z = x ∨ z ∈ l := by
  induction l with
  | nil => simp [insertDesc]
  | cons y ys ih =>
    by_cases h : y.2 ≤ x.2
    · simp [insertDesc, h]
    · simp [insertDesc, h, ih]
      tauto

/-- Insertion grows the length by one. -/
theorem length_insertDesc (x : WChunk × ℝ) (l : List (WChunk × ℝ)) :
    (insertDesc x l).length = l.length + 1 := by
  induction l with
  | nil => rfl
  | cons y ys ih =>
    by_cases h : y.2 ≤ x.2
    · simp [insertDesc, h]
    · simp [insertDesc, h, ih]

/-- Insertion preserves descending sortedness. -/
theorem pairwise_insertDesc (x : WChunk × ℝ) (l : List (WChunk × ℝ))
    (h : l.Pairwise (fun a b => b.2 ≤ a.2)) :
    (insertDesc x l).Pairwise (fun a b => b.2 ≤ a.2) := by
  induction l with
  | nil => simp [insertDesc]
  | cons y ys ih =>
    rcases List.pairwise_cons.mp h with ⟨hy, hys⟩
    by_cases hc : y.2 ≤ x.2
    · rw [insertDesc, if_pos hc]
      refine List.pairwise_cons.mpr ⟨?_, h⟩
      intro z hz
      rcases List.mem_cons.mp hz with hz | hz
      · subst hz; exact hc
      · exact le_trans (hy z hz) hc
    · rw [insertDesc, if_neg hc]
      refine List.pairwise_cons.mpr ⟨?_, ih hys⟩
      intro z hz
      rcases (mem_insertDesc x z ys).mp hz with hz | hz
      · subst hz; exact le_of_not_le hc
      · exact hy z hz

/-- Insertion is stable for any fixed score: filtering at a score commutes
with the insertion, the inserted element landing first when it has that
score, because it only ever passes over strictly larger scores. -/
theorem filter_insertDesc (x : WChunk × ℝ) (l : List (WChunk × ℝ)) (s : ℝ) :
    (insertDesc x l).filter (fun p => decide (p.2 = s))
      = (if x.2 = s then [x] else []) ++ l.filter (fun p => decide (p.2 = s)) := by
  induction l with
  | nil =>
    by_cases h : x.2 = s <;> simp [insertDesc, List.filter, h]
  | cons y ys ih =>
    by_cases hc : y.2 ≤ x.2
    · rw [insertDesc, if_pos hc]
      by_cases h : x.2 = s <;> simp [List.filter_cons, h]
    · rw [insertDesc, if_neg hc]
      by_cases h : x.2 = s
      · have hy : ¬ (y.2 = s) := by
          intro hys
          exact hc (by rw [hys, h])
        simp [List.filter_cons, h, hy, ih]
      · simp [List.filter_cons, h, ih]

/-- The sort keeps the length. -/
theorem length_sortDesc (l : List (WChunk × ℝ)) :
    (sortDesc l).length = l.length := by
  induction l with
  | nil => rfl
  | cons x xs ih =>
    show (insertDesc x (sortDesc xs)).length = xs.length + 1
    rw [length_insertDesc, ih]

/-- The sort output is descending in the scores. -/
theorem pairwise_sortDesc (l : List (WChunk × ℝ)) :
    (sortDesc l).Pairwise (fun a b => b.2 ≤ a.2) := by
  induction l with
  | nil => simp [sortDesc]
  | cons x xs ih => exact pairwise_insertDesc x (sortDesc xs) ih

/-- The sort is stable: at any fixed score the output order is the input
order. -/
theorem filter_sortDesc (l : List (WChunk × ℝ)) (s : ℝ) :
    (sortDesc l).filter (fun p => decide (p.2 = s))
      = l.filter (fun p => decide (p.2 = s)) := by
  induction l with
  | nil => rfl
  | cons x xs ih =>
    show (insertDesc x (sortDesc xs)).filter (fun p => decide (p.2 = s)) = _
    rw [filter_insertDesc, ih, List.filter_cons]
    by_cases h : x.2 = s <;> simp [h]

/-- A filtered prefix is a prefix of the filtered list. -/
theorem filter_take {α : Type} (l : List α) (k : Nat) (p : α → Bool) :
    ∃ m, (l.take k).filter p = (l.filter p).take m := by
  induction l generalizing k with
  | nil => exact ⟨0, by simp⟩
  | cons x xs ih =>
    cases k with
    | zero => exact ⟨0, by simp⟩
    | succ k =>
      obtain ⟨m, hm⟩ := ih k
      by_cases h : p x = true
      · exact ⟨m + 1, by simp [List.filter_cons, h, hm]⟩
      · have h' : p x = false := by simpa using h
        exact ⟨m, by simp [List.filter_cons, h', hm]⟩

/-- C4: for every snapshot, query text and k, the query result has length at
most k, its entries are sorted by non-increasing score, and entries of
equal score keep their snapshot order: restricted to any fixed score, the
result is an initial segment of the scored chunks in snapshot order. -/
theorem tfidfQuery_topk_sorted_stable (index : TfIdfIndex) (query : String) (k : Nat) :
    (tfidfQuery index query k).length ≤ k
    ∧ (tfidfQuery index query k).Pairwise (fun a b => b.2 ≤ a.2)
    ∧ ∀ s : ℝ, ∃ m : Nat,
        (tfidfQuery index query k).filter (fun p => decide (p.2 = s))
          = ((scoreChunks index (tokenize query)).filter
              (fun p => decide (p.2 = s))).take m := by
  unfold tfidfQuery
  by_cases h1 : index.chunks.length = 0
  · rw [if_pos h1]
    exact ⟨by simp, by simp, fun s => ⟨0, by simp⟩⟩
  · rw [if_neg h1]
    by_cases h2 : (tokenize query).length = 0
    · rw [if_pos h2]
      exact ⟨by simp, by simp, fun s => ⟨0, by simp⟩⟩
    · rw [if_neg h2]
      refine ⟨List.length_take_le _ _, ?_, ?_⟩
      · exact (pairwise_sortDesc _).sublist (List.take_sublist _ _)
      · intro s
        obtain ⟨m, hm⟩ := filter_take (sortDesc (scoreChunks index (tokenize query))) k
          (fun p => decide (p.2 = s))
        exact ⟨m, by rw [hm, filter_sortDesc]⟩

/-- C7: a snapshot with zero passages, or a query whose tokenization is
empty, gives an empty result, with no error: the function is total. -/
theorem query_empty_cases (index : TfIdfIndex) (query : String) (k : Nat)
    (h : index.chunks = [] ∨ tokenize query = []) :
    tfidfQuery index query k = [] := by
  unfold tfidfQuery
  rcases h with h | h
  · rw [if_pos (by rw [h]; rfl)]
  · by_cases h1 : index.chunks.length = 0
    · rw [if_pos h1]
    · rw [if_neg h1, if_pos (by rw [h]; rfl)]

/-- Witness for C7: the empty-corpus snapshot answers "anything" with an
empty sequence, and the scenario snapshot answers the all-punctuation
query with an empty sequence. -/
theorem query_empty_cases_witness :
    tfidfQuery (buildTfIdfIndexFromParts []) "anything" 4 = []
    ∧ tfidfQuery (buildTfIdfIndexFromParts dpsEx) "!!!" 4 = [] :=
  ⟨query_empty_cases _ _ _ (Or.inl rfl),
   query_empty_cases _ _ _ (Or.inr (by decide))⟩

/-- C10: on a snapshot with at least one passage and a query with at least
one token, the result length is exactly min k (number of passages):
zero-score passages are scored and ranked, not filtered out. -/
theorem query_length_min_k (index : TfIdfIndex) (query : String) (k : Nat)
    (h1 : index.chunks.length ≠ 0) (h2 : (tokenize query).length ≠ 0) :
    (tfidfQuery index query k).length = min k index.chunks.length := by
  unfold tfidfQuery
  rw [if_neg h1, if_neg h2]
  rw [List.length_take, length_sortDesc]
  unfold scoreChunks
  simp

/-- Witness for C10 at the scenario snapshot and the one-token query
"alpha" with k = 4. -/
theorem query_length_min_k_witness :
    (tfidfQuery (buildTfIdfIndexFromParts dpsEx) "alpha" 4).length
      = min 4 (buildTfIdfIndexFromParts dpsEx).chunks.length :=
  query_length_min_k _ _ _ (by rw [chunksEx]; simp) (by decide)

/-- The norm guard is positive whatever its argument: the square root is
non-negative, and the value zero is replaced by 1. -/
theorem normGuard_pos (x : ℝ) : 0 < normGuard x := by
  unfold normGuard
  by_cases h : Real.sqrt x = 0
  · rw [if_pos h]; norm_num
  · rw [if_neg h]
    exact lt_of_le_of_ne (Real.sqrt_nonneg x) (Ne.symm h)

/-- C6 as amended: the stored norm is the Euclidean norm of the weight
vector when that is non-zero and the fallback 1 when it is zero (the
JavaScript || 1 of line 66, not a floor at 1), it is always positive, and
the query-side norm of line 86 goes through the same always-positive
guard, so the cosine division never divides by zero. -/
theorem norm_fallback_amended (dps : List (Doc × List String)) (c : WChunk)
    (hc : c ∈ (buildTfIdfIndexFromParts dps).chunks) :
    c.norm = normGuard (sumSquares c.vec)
    ∧ 0 < c.norm
    ∧ ∀ qv : List (String × ℝ), 0 < normGuard (sumSquares qv) := by
  have hchunks : (buildTfIdfIndexFromParts dps).chunks
      = (chunksFromParts dps 0).map
          (weightChunk (buildTfIdfIndexFromParts dps).N (buildTfIdfIndexFromParts dps).df) := rfl
  rw [hchunks] at hc
  obtain ⟨c0, hc0, rfl⟩ := List.mem_map.mp hc
  exact ⟨weightChunk_norm _ _ _,
    by rw [weightChunk_norm]; exact normGuard_pos _,
    fun qv => normGuard_pos _⟩

/-- Witness for C6 at the scenario passage. -/
theorem norm_fallback_amended_witness :
    cEx.norm = normGuard (sumSquares cEx.vec) ∧ 0 < cEx.norm :=
  ⟨(norm_fallback_amended dpsEx cEx (by rw [chunksEx]; exact List.mem_singleton.mpr rfl)).1,
   (norm_fallback_amended dpsEx cEx (by rw [chunksEx]; exact List.mem_singleton.mpr rfl)).2.1⟩

/-- A two-term document for the C6 counterexample. -/
def docEx2 : Doc := ⟨"d2", "", "alpha beta"⟩

/-- The document-and-parts input of the C6 counterexample. -/
def dpsEx2 : List (Doc × List String) := [(docEx2, ["alpha beta"])]

/-- The single weighted chunk of the snapshot built over dpsEx2. -/
noncomputable def cEx2 : WChunk :=
  weightChunk 1 (buildDF (chunksFromParts dpsEx2 0))
    ⟨"c0", "d2", "", "alpha beta", ["alpha", "beta"]⟩

/-- The snapshot built over dpsEx2 holds exactly the chunk cEx2. -/
theorem chunksEx2 : (buildTfIdfIndexFromParts dpsEx2).chunks = [cEx2] := rfl

/-- The weight vector of cEx2: both terms occur once among two tokens and in
the single passage, so each weight is (1/2) * (ln(2/2) + 1) = 1/2. -/
theorem vecEx2 : cEx2.vec = [("alpha", (1/2 : ℝ)), ("beta", (1/2 : ℝ))] := by
  have h1 : mapGet (buildDF (chunksFromParts dpsEx2 0)) "alpha" = some 1 := by decide
  have h2 : mapGet (buildDF (chunksFromParts dpsEx2 0)) "beta" = some 1 := by decide
  have htf : countFold [] ["alpha", "beta"] = [("alpha", 1), ("beta", 1)] := by decide
  have hvec := weightChunk_vec 1 (buildDF (chunksFromParts dpsEx2 0))
    ⟨"c0", "d2", "", "alpha beta", ["alpha", "beta"]⟩
  rw [show cEx2.vec = (weightChunk 1 (buildDF (chunksFromParts dpsEx2 0))
    ⟨"c0", "d2", "", "alpha beta", ["alpha", "beta"]⟩).vec from rfl, hvec]
  show (countFold [] ["alpha", "beta"]).map _ = _
  rw [htf]
  simp [idfOf, h1, h2]

/-- The stored norm of cEx2 is sqrt(1/4 + 1/4) = sqrt(1/2). -/
theorem normEx2 : cEx2.norm = Real.sqrt (1/2) := by
  have h : cEx2.norm = normGuard (sumSquares cEx2.vec) := weightChunk_norm _ _ _
  rw [h, vecEx2]
  have hsum : sumSquares [("alpha", (1/2 : ℝ)), ("beta", (1/2 : ℝ))] = (1/2 : ℝ) := by
    unfold sumSquares
    norm_num
  rw [hsum]
  unfold normGuard
  rw [if_neg (ne_of_gt (Real.sqrt_pos.mpr (by norm_num)))]

/-- C6 counterexample: the claim says the stored norm is the Euclidean norm
floored at 1.  The snapshot built over the single passage "alpha beta"
stores the norm sqrt(1/2) < 1, while flooring the Euclidean norm at 1
would store max(sqrt(1/2), 1) = 1, so the stored value is not the floored
one. -/
theorem norm_not_floored_counterexample :
    cEx2 ∈ (buildTfIdfIndexFromParts dpsEx2).chunks
    ∧ cEx2.norm = Real.sqrt (1/2)
    ∧ Real.sqrt (1/2) < 1
    ∧ max (Real.sqrt (1/2)) 1 = 1 := by
  have hlt : Real.sqrt (1/2) < 1 := by
    have h := Real.sqrt_lt_sqrt (by norm_num) (show (1/2 : ℝ) < 1 by norm_num)
    rwa [Real.sqrt_one] at h
  exact ⟨by rw [chunksEx2]; exact List.mem_singleton.mpr rfl, normEx2, hlt,
    max_eq_right (le_of_lt hlt)⟩

/-- After the replacement, every character is whitespace or lower-case
alphanumeric. -/
theorem replaceChar_ws_or_alnum (c : Char) :
    isJsWs (replaceChar c) = true ∨ isLowerAlnum (replaceChar c) = true := by
  unfold replaceChar
  by_cases h : (isLowerAlnum c || isJsWs c) = true
  · rw [if_pos h]
    simp only [Bool.or_eq_true_iff] at h
    rcases h with h | h
    · right; exact h
    · left; exact h
  · rw [if_neg h]
    left; rfl

/-- A token emitted from a non-empty accumulator of lower-case alphanumeric
characters is non-empty and lower-case alphanumeric. -/
theorem mk_reverse_token (cur : List Char) (hc : cur ≠ [])
    (hcur : ∀ c ∈ cur, isLowerAlnum c = true) :
    String.mk cur.reverse ≠ "" ∧ (String.mk cur.reverse).toList.all isLowerAlnum = true := by
  constructor
  · intro hbad
    apply hc
    have h2 := congrArg String.toList hbad
    simpa using h2
  · rw [List.all_eq_true]
    intro c hcm
    exact hcur c (by simpa using hcm)

/-- Every token produced by the whitespace splitter from whitespace-or-
alphanumeric input is non-empty and consists of lower-case alphanumeric
characters only. -/
theorem wsTokens_sound (l : List Char) :
    ∀ cur : List Char, (∀ c ∈ l, isJsWs c = true ∨ isLowerAlnum c = true) →
      (∀ c ∈ cur, isLowerAlnum c = true) →
      ∀ tok ∈ wsTokens l cur, tok ≠ "" ∧ tok.toList.all isLowerAlnum = true := by
  induction l with
  | nil =>
    intro cur _ hcur tok htok
    by_cases hc : cur = []
    · subst hc; simp [wsTokens] at htok
    · simp only [wsTokens, if_neg hc] at htok
      rcases List.mem_singleton.mp htok with rfl
      exact mk_reverse_token cur hc hcur
  | cons a as ih =>
    intro cur hl hcur tok htok
    by_cases hws : isJsWs a = true
    · simp only [wsTokens, if_pos hws] at htok
      by_cases hc : cur = []
      · rw [if_pos hc] at htok
        exact ih [] (fun c hc' => hl c (List.mem_cons_of_mem _ hc')) (by simp) tok htok
      · rw [if_neg hc] at htok
        rcases List.mem_cons.mp htok with rfl | htok'
        · exact mk_reverse_token cur hc hcur
        · exact ih [] (fun c hc' => hl c (List.mem_cons_of_mem _ hc')) (by simp) tok htok'
    · have halnum : isLowerAlnum a = true := by
        rcases hl a (List.mem_cons_self a as) with h | h
        · exact absurd h hws
        · exact h
      simp only [wsTokens, if_neg hws] at htok
      refine ih (a :: cur) (fun c hc' => hl c (List.mem_cons_of_mem _ hc')) ?_ tok htok
      intro c hc'
      rcases List.mem_cons.mp hc' with rfl | hc''
      · exact halnum
      · exact hcur c hc''

/-- C8: tokenize lower-cases its input, replaces every character outside
[a-z0-9] and whitespace by a space, splits on whitespace runs and drops
empty tokens; it is a pure total function, the empty and the missing
input tokenize to the empty sequence, and every produced token is
non-empty and consists of lower-case alphanumeric characters only. -/
theorem tokenize_contract :
    tokenize "" = []
    ∧ tokenizeNullable none = []
    ∧ ∀ (s : String) (tok : String), tok ∈ tokenize s →
        tok ≠ "" ∧ tok.toList.all isLowerAlnum = true := by
  refine ⟨rfl, rfl, ?_⟩
  intro s tok htok
  refine wsTokens_sound ((s.toList.map Char.toLower).map replaceChar) [] ?_ (by simp) tok htok
  intro c hcm
  rcases List.mem_map.mp hcm with ⟨c1, _, rfl⟩
  exact replaceChar_ws_or_alnum c1

/-- Witness for C8: the mixed-case punctuated input yields the token
"hello", which is non-empty and lower-case alphanumeric. -/
theorem tokenize_contract_witness :
    "hello" ≠ "" ∧ "hello".toList.all isLowerAlnum = true :=
  tokenize_contract.2.2 "Hello, W0rld!" "hello" (by decide)
